import Mathlib

/-!
Verification of the "second-brain" text-annotation engine.

The TypeScript source operates on JavaScript strings; here text is embedded
as `List Char`.  The regex-based extraction loops (`regex.exec` with the `g`
flag) are embedded as explicit left-to-right scanners: a `tryAt` function
gives, for a position, the length of the match and the captured group, and
`scanAll` reproduces the exec loop (leftmost match at or after the current
scan position, then advance past the match).  JavaScript case-insensitive
(`i`-flag) matching is embedded by comparing `Char.toLower` images, which
agrees with JS on the ASCII range the patterns use.
-/

namespace SecondBrain

/-- JS whitespace (`\s`, `trim`), restricted to the ASCII range. -/
def isJsWs (c : Char) : Bool :=
  c = ' ' || c = '\t' || c = '\n' || c = '\r' || c = Char.ofNat 11 || c = Char.ofNat 12

/-- A character matched by the regex `.` (anything except line terminators). -/
def isDotChar (c : Char) : Bool :=
  !(c = '\n' || c = '\r')

/-- `String.prototype.toLowerCase`, ASCII range. -/
def lcList (l : List Char) : List Char := l.map Char.toLower

/-- `String.prototype.trim`. -/
def jsTrim (l : List Char) : List Char :=
  ((l.dropWhile isJsWs).reverse.dropWhile isJsWs).reverse

/-- Exact prefix test: does `pat` occur verbatim at the head of `s`? -/
def exactPrefixAt : List Char → List Char → Bool
  | [], _ => true
  | _ :: _, [] => false
  | p :: ps, c :: cs => p = c && exactPrefixAt ps cs

/-- Case-insensitive prefix test (JS `i` flag). -/
def icasePrefixAt : List Char → List Char → Bool
  | [], _ => true
  | _ :: _, [] => false
  | p :: ps, c :: cs => p.toLower = c.toLower && icasePrefixAt ps cs

/-- Does `pat` occur verbatim in `s` starting at index `i`? -/
def exactAt (pat s : List Char) (i : Nat) : Bool :=
  exactPrefixAt pat (s.drop i)

/-- Does `pat` occur case-insensitively in `s` starting at index `i`? -/
def icaseAt (pat s : List Char) (i : Nat) : Bool :=
  icasePrefixAt pat (s.drop i)

/-- `String.prototype.includes` (used by the sources as `lower.includes(kw)`). -/
def jsIncludes (s sub : List Char) : Bool :=
  (List.range (s.length + 1)).any (fun p => exactPrefixAt sub (s.drop p))

/-- `s.slice(a, b)` for `a ≤ b` (the only way the sources use it). -/
def slice (s : List Char) (a b : Nat) : List Char :=
  (s.drop a).take (b - a)

/-- Length of the whitespace run of `s` starting at index `i` (`\s+` fodder). -/
def wsRunLen (s : List Char) (i : Nat) : Nat :=
  ((s.drop i).takeWhile isJsWs).length

/-- Length of the `.`-matchable run of `s` starting at index `i`. -/
def dotRunLen (s : List Char) (i : Nat) : Nat :=
  ((s.drop i).takeWhile isDotChar).length

/-- `[n, n-1, ..., 1]`: the order in which a greedy quantifier is retried. -/
def downList : Nat → List Nat
  | 0 => []
  | n + 1 => (n + 1) :: downList n

/-- `[n, n-1, ..., 0]`. -/
def downList0 (n : Nat) : List Nat := downList n ++ [0]

/-- First index `i` with `pos ≤ i ≤ n` satisfying `p`, if any. -/
def findIdxFrom (n pos : Nat) (p : Nat → Bool) : Option Nat :=
  (List.range (n + 1)).find? (fun i => decide (pos ≤ i) && p i)

/-- The `regex.exec` loop of a `g`-flag regex: repeatedly take the leftmost
match at or after the scan position and advance past it.  `tryAt i` returns
`(length of match[0], captured group)` for a match starting at `i`.
Results are `(index, length, capture)` triples. -/
def scanFrom (tryAt : Nat → Option (Nat × List Char)) (n : Nat) :
    Nat → Nat → List (Nat × Nat × List Char)
  | 0, _ => []
  | fuel + 1, pos =>
    match findIdxFrom n pos (fun i => (tryAt i).isSome) with
    | none => []
    | some i =>
      match tryAt i with
      | none => []
      | some (len, cap) => (i, len, cap) :: scanFrom tryAt n fuel (i + len)

/-- All matches of a `g`-flag regex over `s`, in scan order. -/
def scanAll (tryAt : Nat → Option (Nat × List Char)) (s : List Char) :
    List (Nat × Nat × List Char) :=
  scanFrom tryAt s.length (s.length + 1) 0

/-! ### memory-features.ts : parseMemoryContent -/

/-- `[a-zA-Z0-9_-]`, the tag character class. -/
def isTagChar (c : Char) : Bool :=
  c.isAlphanum || c = '_' || c = '-'

/-- Match of `/@([A-Z][a-zA-Z]+\s?[A-Z]?[a-zA-Z]*)/` starting at index `i`:
`@`, an upper-case letter, a maximal nonempty letter run, then (greedily) an
optional whitespace character followed by an optional further letter run
(`[A-Z]?[a-zA-Z]*` after maximal munch collapses to a maximal letter run).
Returns `(match[0].length, match[1])`. -/
def contactTryAt (s : List Char) (i : Nat) : Option (Nat × List Char) :=
  match s.drop i with
  | '@' :: c1 :: rest =>
    if c1.isUpper then
      let run1 := rest.takeWhile Char.isAlpha
      if run1.isEmpty then none
      else
        let cap :=
          match rest.drop run1.length with
          | w :: rest2 =>
            if isJsWs w then c1 :: (run1 ++ w :: rest2.takeWhile Char.isAlpha)
            else c1 :: run1
          | [] => c1 :: run1
        some (1 + cap.length, cap)
    else none
  | _ => none

/-- Match of `/#([a-zA-Z0-9_-]+)/` starting at index `i`. -/
def tagTryAt (s : List Char) (i : Nat) : Option (Nat × List Char) :=
  match s.drop i with
  | '#' :: rest =>
    let cap := rest.takeWhile isTagChar
    if cap.isEmpty then none else some (1 + cap.length, cap)
  | _ => none

/-- Match of `/\[\[([^\]]+)\]\]/` starting at index `i`: `[[`, a maximal
nonempty run of non-`]` characters, then `]]`. -/
def linkTryAt (s : List Char) (i : Nat) : Option (Nat × List Char) :=
  match s.drop i with
  | '[' :: '[' :: rest =>
    let cap := rest.takeWhile (fun c => c ≠ ']')
    if cap.isEmpty then none
    else
      match rest.drop cap.length with
      | ']' :: ']' :: _ => some (cap.length + 4, cap)
      | _ => none
  | _ => none

inductive MentionType where
  | contact | tag | link | project | deal
deriving DecidableEq, Repr

/-- `MemoryMention`; the source's `end` field is called `stop` here
(`end` is a Lean keyword). -/
structure MemoryMention where
  type : MentionType
  value : List Char
  start : Nat
  stop : Nat
deriving DecidableEq, Repr

/-- JS `Set` materialised with `Array.from`: insertion order, first kept. -/
def setAddAux (acc : List (List Char)) (x : List Char) : List (List Char) :=
  if x ∈ acc then acc else acc ++ [x]

def dedupKeepFirst (l : List (List Char)) : List (List Char) :=
  l.foldl setAddAux []

/-- The `@ContactName` exec loop of `parseMemoryContent`, as mentions. -/
def contactMentions (content : List Char) : List MemoryMention :=
  (scanAll (contactTryAt content) content).map
    (fun x => ⟨.contact, jsTrim x.2.2, x.1, x.1 + x.2.1⟩)

/-- The `#tag` exec loop of `parseMemoryContent`, as mentions. -/
def tagMentions (content : List Char) : List MemoryMention :=
  (scanAll (tagTryAt content) content).map
    (fun x => ⟨.tag, lcList x.2.2, x.1, x.1 + x.2.1⟩)

/-- The `[[Wiki Link]]` exec loop of `parseMemoryContent`, as mentions. -/
def linkMentions (content : List Char) : List MemoryMention :=
  (scanAll (linkTryAt content) content).map
    (fun x => ⟨.link, x.2.2, x.1, x.1 + x.2.1⟩)

structure ParseResult where
  mentions : List MemoryMention
  tags : List (List Char)
  contacts : List (List Char)
  links : List (List Char)
deriving DecidableEq, Repr

/-- `parseMemoryContent(content)`: the three exec loops run in source order
(contacts, then tags, then links), each pushing into the shared `mentions`
array; the flat lists are the `Set`s in insertion order. -/
def parseMemoryContent (content : List Char) : ParseResult :=
  { mentions := contactMentions content ++ tagMentions content ++ linkMentions content
    tags := dedupKeepFirst ((scanAll (tagTryAt content) content).map (fun x => lcList x.2.2))
    contacts := dedupKeepFirst ((scanAll (contactTryAt content) content).map (fun x => jsTrim x.2.2))
    links := dedupKeepFirst ((scanAll (linkTryAt content) content).map (fun x => x.2.2)) }

/-! ### wiki-links.ts -/

/-- The note records consumed by wiki-links.ts and the summary generator. -/
structure MemoryRec where
  name : List Char
  path : List Char
  content : List Char
  lastModified : List Char
deriving DecidableEq, Repr

structure Backlink where
  sourceMemory : List Char
  sourcePath : List Char
  context : List Char
  lastModified : List Char
deriving DecidableEq, Repr

/-- `extractWikiLinks(content)`: all `[[...]]` captures, trimmed, deduplicated
by a `Set` (insertion order). -/
def extractWikiLinks (content : List Char) : List (List Char) :=
  dedupKeepFirst ((scanAll (linkTryAt content) content).map (fun x => jsTrim x.2.2))

/-- The compiled pattern of ``new RegExp(`\\[\\[${escapeRegex(title)}\\]\\]`, 'gi')``:
`escapeRegex` makes the title literal, so the regex matches the literal text
`[[title]]` case-insensitively. -/
def backlinkPat (title : List Char) : List Char :=
  '[' :: '[' :: (title ++ [']', ']'])

/-- First index `j ≥ pos` at which `pat` occurs case-insensitively in `s`. -/
def findIcaseFrom (pat s : List Char) (pos : Nat) : Option Nat :=
  findIdxFrom s.length pos (fun j => icaseAt pat s j)

/-- `regex.test(s)` for a `g`-flag regex object: the search starts at the
regex's persistent `lastIndex`; on success `lastIndex` moves past the match,
on failure it resets to `0`.  Returns `(result, new lastIndex)`. -/
def regexTestG (pat : List Char) (li : Nat) (s : List Char) : Bool × Nat :=
  match findIcaseFrom pat s li with
  | some j => (true, j + pat.length)
  | none => (false, 0)

/-- Match of ``(.{0,100}\[\[title\]\].{0,100})`` starting at `b`: a greedy
(longest-first) prefix of at most 100 `.`-characters, the literal
`[[title]]` case-insensitively, then a greedy suffix of at most 100
`.`-characters.  The capture is the whole match. -/
def ctxTryAt (title s : List Char) (b : Nat) : Option (Nat × List Char) :=
  let pat := backlinkPat title
  let pre := min 100 (dotRunLen s b)
  match (downList0 pre).find? (fun k => icaseAt pat s (b + k)) with
  | none => none
  | some k =>
    let e := b + k + pat.length
    let post := min 100 (dotRunLen s e)
    some (k + pat.length + post, slice s b (e + post))

/-- The fallback context `` `Links to [[${targetTitle}]]` ``. -/
def linksToFallback (title : List Char) : List Char :=
  "Links to [[".data ++ title ++ "]]".data

/-- The loop of `findBacklinks`, threading the shared `targetRegex`'s
`lastIndex` (the regex object is created once, outside the loop). -/
def findBacklinksGo (targetTitle : List Char) : Nat → List MemoryRec → List Backlink
  | _, [] => []
  | li, m :: rest =>
    match regexTestG (backlinkPat targetTitle) li m.content with
    | (true, li') =>
      let contexts :=
        (scanAll (ctxTryAt targetTitle m.content) m.content).map (fun x => jsTrim x.2.2)
      let ctx :=
        match contexts with
        | [] => linksToFallback targetTitle
        | c :: _ => if c.isEmpty then linksToFallback targetTitle else c
      ⟨m.name, m.path, ctx, m.lastModified⟩ :: findBacklinksGo targetTitle li' rest
    | (false, li') => findBacklinksGo targetTitle li' rest

/-- `findBacklinks(targetTitle, memories)`. -/
def findBacklinks (targetTitle : List Char) (memories : List MemoryRec) : List Backlink :=
  findBacklinksGo targetTitle 0 memories

/-- The matching rule of `findForwardLinks`: equality, or substring
containment in either direction, on lower-cased name and title. -/
def ffMatch (m : MemoryRec) (title : List Char) : Bool :=
  lcList m.name = lcList title ||
  jsIncludes (lcList m.name) (lcList title) ||
  jsIncludes (lcList title) (lcList m.name)

/-- The matching rule of `buildLinkGraph`: equality, or the name containing
the link, on lower-cased strings (no containment in the other direction). -/
def blgMatch (m : MemoryRec) (link : List Char) : Bool :=
  lcList m.name = lcList link ||
  jsIncludes (lcList m.name) (lcList link)

/-- The source's `exists` field is called `existsFlag` here
(`exists` is a Lean keyword). -/
structure FwdLink where
  title : List Char
  existsFlag : Bool
  path : Option (List Char)
deriving DecidableEq, Repr

/-- `findForwardLinks(content, memories)`. -/
def findForwardLinks (content : List Char) (memories : List MemoryRec) : List FwdLink :=
  (extractWikiLinks content).map (fun title =>
    match memories.find? (fun m => ffMatch m title) with
    | some m => ⟨title, true, some m.path⟩
    | none => ⟨title, false, none⟩)

structure GNode where
  id : List Char
  label : List Char
deriving DecidableEq, Repr

structure GEdge where
  source : List Char
  target : List Char
deriving DecidableEq, Repr

/-- The inner per-link loop of `buildLinkGraph`. -/
def buildLinkGraphLinks (memories : List MemoryRec) (mpath : List Char) :
    List GNode × List GEdge → List (List Char) → List GNode × List GEdge
  | acc, [] => acc
  | (nodes, edges), link :: rest =>
    match memories.find? (fun m => blgMatch m link) with
    | some t => buildLinkGraphLinks memories mpath (nodes, edges ++ [⟨mpath, t.path⟩]) rest
    | none =>
      let virtualId := "virtual:".data ++ link
      let nodes' := if nodes.any (fun n => n.id = virtualId) then nodes
                    else nodes ++ [⟨virtualId, link⟩]
      buildLinkGraphLinks memories mpath (nodes', edges ++ [⟨mpath, virtualId⟩]) rest

/-- The outer per-memory loop of `buildLinkGraph`. -/
def buildLinkGraphGo (memories : List MemoryRec) :
    List GNode × List GEdge → List MemoryRec → List GNode × List GEdge
  | acc, [] => acc
  | (nodes, edges), m :: rest =>
    let acc' := buildLinkGraphLinks memories m.path
      (nodes ++ [⟨m.path, m.name⟩], edges) (extractWikiLinks m.content)
    buildLinkGraphGo memories acc' rest

/-- `buildLinkGraph(memories)`. -/
def buildLinkGraph (memories : List MemoryRec) : List GNode × List GEdge :=
  buildLinkGraphGo memories ([], []) memories

/-! ### wiki-links.ts : getLinkStats -/

/-- A JS object used as a counter: an association list in key-insertion
order; an existing key is bumped in place, a new key is appended. -/
def bumpCount : List (List Char × Nat) → List Char → List (List Char × Nat)
  | [], k => [(k, 1)]
  | (k', n) :: rest, k =>
    if k' = k then (k', n + 1) :: rest else (k', n) :: bumpCount rest k

def lookupCount : List (List Char × Nat) → List Char → Nat
  | [], _ => 0
  | (k', n) :: rest, k => if k' = k then n else lookupCount rest k

def bumpAll (c : List (List Char × Nat)) (ks : List (List Char)) :
    List (List Char × Nat) :=
  ks.foldl bumpCount c

/-- The `linkCounts` object of `getLinkStats` after the main loop. -/
def linkCountsOf (memories : List MemoryRec) : List (List Char × Nat) :=
  memories.foldl (fun c m => bumpAll c (extractWikiLinks m.content)) []

structure LinkStat where
  title : List Char
  count : Nat
deriving DecidableEq, Repr

/-- Stable insertion used to model `Array.prototype.sort` with comparator
`(a, b) => b.count - a.count` (ES2019 sort is stable: an element is placed
after all earlier elements with a greater-or-equal count). -/
def insDesc (x : LinkStat) : List LinkStat → List LinkStat
  | [] => [x]
  | y :: ys => if y.count < x.count then x :: y :: ys else y :: insDesc x ys

def stableSortDesc (l : List LinkStat) : List LinkStat :=
  l.foldl (fun acc x => insDesc x acc) []

structure LinkStats where
  totalLinks : Nat
  uniqueTargets : Nat
  orphanLinks : Nat
  mostLinked : List LinkStat
deriving DecidableEq, Repr

def keyToNat (k : List Char) : Nat :=
  k.foldl (fun a c => a * 10 + (c.toNat - 48)) 0

/-- Is the key a canonical array-index string (all digits, no leading zero
except `0` itself, value below 2^32 - 1)?  JS objects enumerate such keys
first, in ascending numeric order. -/
def isArrayIndexKey (k : List Char) : Bool :=
  !k.isEmpty && k.all Char.isDigit &&
  (k = ['0'] || k.headD ' ' ≠ '0') &&
  keyToNat k < 4294967295

def insAscIdx (x : List Char × Nat) : List (List Char × Nat) → List (List Char × Nat)
  | [] => [x]
  | y :: ys => if keyToNat x.1 < keyToNat y.1 then x :: y :: ys else y :: insAscIdx x ys

/-- `Object.entries` / `Object.keys` enumeration order on a string-keyed
object: array-index-like keys first, in ascending numeric order, then the
remaining keys in insertion order. -/
def jsEntriesOrder (l : List (List Char × Nat)) : List (List Char × Nat) :=
  ((l.filter (fun p => isArrayIndexKey p.1)).foldl (fun acc x => insAscIdx x acc) []) ++
    l.filter (fun p => !(isArrayIndexKey p.1))

/-- `getLinkStats(memories)`; `Object.keys`/`Object.entries` of `linkCounts`
enumerate in `jsEntriesOrder`. -/
def getLinkStats (memories : List MemoryRec) : LinkStats :=
  let allLinks := memories.foldl (fun a m => a ++ extractWikiLinks m.content) []
  let counts := jsEntriesOrder (linkCountsOf memories)
  { totalLinks := allLinks.length
    uniqueTargets := counts.length
    orphanLinks :=
      ((counts.map Prod.fst).filter (fun title =>
        !(memories.any (fun m =>
          lcList m.name = lcList title || jsIncludes (lcList m.name) (lcList title))))).length
    mostLinked := (stableSortDesc (counts.map (fun p => ⟨p.1, p.2⟩))).take 10 }

/-! ### voice-capture.ts -/

inductive MemType where
  | meeting | call | note | idea | reminder
deriving DecidableEq, Repr

/-- `detectMemoryType(text)`: the keyword ladder over the lower-cased text.
The string `don't forget` is written with `\x27` for the apostrophe. -/
def detectMemoryType (text : List Char) : MemType :=
  let lower := lcList text
  if jsIncludes lower "meeting".data || jsIncludes lower "call with".data ||
     jsIncludes lower "discussed with".data then .meeting
  else if jsIncludes lower "call".data || jsIncludes lower "phone".data ||
     jsIncludes lower "spoke to".data then .call
  else if jsIncludes lower "remember".data || jsIncludes lower "remind me".data ||
     jsIncludes lower "don\x27t forget".data then .reminder
  else if jsIncludes lower "idea".data || jsIncludes lower "what if".data ||
     jsIncludes lower "maybe we could".data then .idea
  else .note

structure VoiceActionItem where
  text : List Char
  assignee : Option (List Char)
  dueDate : Option (List Char)
deriving DecidableEq, Repr

/-- The due-date ladder of `extractVoiceActionItems`, applied to the
lower-cased *whole transcript*. -/
def voiceDueDate (lower : List Char) : Option (List Char) :=
  if jsIncludes lower "tomorrow".data then some "tomorrow".data
  else if jsIncludes lower "today".data then some "today".data
  else if jsIncludes lower "next week".data then some "next week".data
  else if jsIncludes lower "by friday".data then some "Friday".data
  else if jsIncludes lower "by monday".data then some "Monday".data
  else none

/-- The clause terminator `(?:\.|,|⟨keywords⟩|$)`: at position `j`, the first
alternative (in source order) matching case-insensitively, or `$` at the end
of the string.  Returns the matched terminator's length. -/
def termAt (terms : List (List Char)) (s : List Char) (j : Nat) : Option Nat :=
  match terms.findSome? (fun t => if icaseAt t s j then some t.length else none) with
  | some tl => some tl
  | none => if j = s.length then some 0 else none

/-- The lazy group-plus-terminator `(.+?)(?:...|$)` starting at `c0`: the
smallest `k ≥ 1` such that `k` `.`-characters are followed by a terminator.
Returns `(k, terminator length)`. -/
def lazyCapture (terms : List (List Char)) (s : List Char) (c0 : Nat) :
    Option (Nat × Nat) :=
  (List.range (dotRunLen s c0 + 1)).findSome? (fun k =>
    if k = 0 then none
    else (termAt terms s (c0 + k)).map (fun tl => (k, tl)))

/-- Match at `i` of a pattern `(?:alt|...)\s+(.+?)(?:...|$)` (the shape of the
modal-obligation, communication-action and imperative-reminder patterns):
prefix alternatives tried in order with full backtracking, greedy `\s+`
(longest run first), then the lazy capture.  Returns
`(match[0].length, match[1])`. -/
def modalTryAt (prefixes terms : List (List Char)) (s : List Char) (i : Nat) :
    Option (Nat × List Char) :=
  prefixes.findSome? (fun pre =>
    if icaseAt pre s i then
      let plen := pre.length
      (downList (wsRunLen s (i + plen))).findSome? (fun w =>
        (lazyCapture terms s (i + plen + w)).map (fun kt =>
          (plen + w + kt.1 + kt.2, slice s (i + plen + w) (i + plen + w + kt.1))))
    else none)

/-- Match at `i` of `(?:follow up|follow-up|followup)\s+(?:with\s+)?(.+?)(...)`:
like `modalTryAt` but with the greedy optional `with\s+` group tried
present-first. -/
def followUpTryAt (terms : List (List Char)) (s : List Char) (i : Nat) :
    Option (Nat × List Char) :=
  ["follow up".data, "follow-up".data, "followup".data].findSome? (fun pre =>
    if icaseAt pre s i then
      let plen := pre.length
      (downList (wsRunLen s (i + plen))).findSome? (fun w =>
        let c0 := i + plen + w
        let present :=
          if icaseAt "with".data s c0 then
            (downList (wsRunLen s (c0 + 4))).findSome? (fun w2 =>
              (lazyCapture terms s (c0 + 4 + w2)).map (fun kt =>
                (plen + w + 4 + w2 + kt.1 + kt.2,
                 slice s (c0 + 4 + w2) (c0 + 4 + w2 + kt.1))))
          else none
        match present with
        | some r => some r
        | none =>
          (lazyCapture terms s c0).map (fun kt =>
            (plen + w + kt.1 + kt.2, slice s c0 (c0 + kt.1))))
    else none)

/-- `item.match(/(.+?)\s+to\s+(.+)/)` (no flags: case-sensitive, leftmost
match, lazy first group, greedy second group).  Returns `(m[1], m[2])`. -/
def assigneeSplit (item : List Char) : Option (List Char × List Char) :=
  (List.range item.length).findSome? (fun p =>
    (List.range (dotRunLen item p + 1)).findSome? (fun k =>
      if k = 0 then none
      else
        let q := p + k
        let w := wsRunLen item q
        if w = 0 then none
        else if exactAt "to".data item (q + w) then
          let q2 := q + w + 2
          (downList (wsRunLen item q2)).findSome? (fun w2 =>
            let r := dotRunLen item (q2 + w2)
            if r = 0 then none
            else some (slice item p (p + k), slice item (q2 + w2) (q2 + w2 + r)))
        else none))

/-- The body of the `while` loop of `extractVoiceActionItems` for one match:
trim the capture, split off an assignee, attach the transcript-global due
date, and push subject to the length and duplicate guards. -/
def pushItem (lower : List Char) (items : List VoiceActionItem) (cap : List Char) :
    List VoiceActionItem :=
  let item0 := jsTrim cap
  let ai :=
    match assigneeSplit item0 with
    | some (a, b) => (some a, b)
    | none => ((none : Option (List Char)), item0)
  let item := ai.2
  if decide (5 < item.length) && !(items.any (fun it => it.text = item)) then
    items ++ [⟨item, ai.1, voiceDueDate lower⟩]
  else items

def voiceTerms1 : List (List Char) :=
  [".".data, ",".data, "before".data, "by".data, "tomorrow".data, "today".data]

def voiceTerms2 : List (List Char) :=
  [".".data, ",".data, "by".data, "before".data, "tomorrow".data, "today".data]

def voiceTerms4 : List (List Char) := [".".data, ",".data]

def voicePre1 : List (List Char) :=
  ["need to".data, "have to".data, "should".data, "must".data, "will".data]

def voicePre3 : List (List Char) :=
  ["send".data, "email".data, "call".data, "message".data, "write".data]

def voicePre4 : List (List Char) :=
  ["remember to".data, "don\x27t forget to".data, "make sure to".data]

/-- `extractVoiceActionItems(text)`: the four patterns are scanned over the
whole text in source order, accumulating into one `items` array. -/
def extractVoiceActionItems (text : List Char) : List VoiceActionItem :=
  let lower := lcList text
  let step := fun (items : List VoiceActionItem) (tryAt : Nat → Option (Nat × List Char)) =>
    (scanAll tryAt text).foldl (fun its x => pushItem lower its x.2.2) items
  let items := step [] (modalTryAt voicePre1 voiceTerms1 text)
  let items := step items (followUpTryAt voiceTerms2 text)
  let items := step items (modalTryAt voicePre3 voiceTerms2 text)
  let items := step items (modalTryAt voicePre4 voiceTerms4 text)
  items

/-! ### memory-features.ts : extractMentionContext

`extractMentionContext` builds ``new RegExp(`@${mentionName}`, 'gi')`` from an
*unescaped* caller string, so the `RegExp` constructor can throw a
`SyntaxError`.  `regexValid` models the ECMAScript pattern well-formedness
check for non-`u` patterns (the grammar of Patterns with the Annex B
extensions, as the flags are only `gi`), by recursive descent:

* groups must balance; `(?` must introduce `(?:`, a lookahead `(?=`/`(?!`,
  a lookbehind `(?<=`/`(?<!`, or a named group `(?<name>` whose name is a
  nonempty identifier; a duplicate group name is an error unless the two
  groups sit in different alternatives of a containing disjunction;
* a quantifier (`*`, `+`, `?`, or a braced quantifier, each with an optional
  lazy `?`) needs a preceding atom; lookaheads are quantifiable, the other
  assertions (`^`, `$`, `\b`, `\B`, lookbehind) are not; a braced-quantifier
  shape with nothing to repeat, or with its bounds out of order
  (`a{2,1}`), is an error, while a `{` not forming the shape is a literal;
* a character class must be terminated, and a range whose endpoints are both
  single characters (escape sequences evaluated to their character values)
  must be ordered — `[z-a]` and `[\x61-\x30]` are errors, while a range
  endpoint that is a class escape like `\d` is allowed;
* `\k` must be a resolvable `\k<name>` when the pattern declares any group
  name, and is an identity escape otherwise; a trailing backslash is an
  error; every other escape is valid (Annex B identity/legacy-octal
  fallbacks). -/

/-- Names of capture groups and `\k` references collected while parsing,
with the unconsumed remainder of the input. -/
structure GroupInfo where
  rest : List Char
  names : List (List Char)
  krefs : List (Option (List Char))

def isHexDigit (c : Char) : Bool :=
  c.isDigit || ('a' ≤ c && c ≤ 'f') || ('A' ≤ c && c ≤ 'F')

def hexVal (c : Char) : Nat :=
  if c.isDigit then c.toNat - 48
  else if 'a' ≤ c && c ≤ 'f' then c.toNat - 87
  else c.toNat - 55

def digitsToNat (l : List Char) : Nat :=
  l.foldl (fun a c => a * 10 + (c.toNat - 48)) 0

/-- `{ Digits , Digits? }`: the braced-quantifier shape, with its bounds. -/
def bracedQuant : List Char → Option (Nat × Option Nat × List Char)
  | '{' :: r =>
    let d1 := r.takeWhile Char.isDigit
    if d1.isEmpty then none
    else
      match r.drop d1.length with
      | '}' :: r2 => some (digitsToNat d1, some (digitsToNat d1), r2)
      | ',' :: r2 =>
        let d2 := r2.takeWhile Char.isDigit
        match r2.drop d2.length with
        | '}' :: r3 =>
          if d2.isEmpty then some (digitsToNat d1, none, r3)
          else some (digitsToNat d1, some (digitsToNat d2), r3)
        | _ => none
      | _ => none
  | _ => none

/-- Consume an optional lazy `?` after a quantifier. -/
def lazyOpt : List Char → List Char
  | '?' :: r => r
  | s => s

/-- Consume a quantifier if one is present.  `none` is the SyntaxError of a
braced quantifier with bounds out of order; a `{` not forming the
braced-quantifier shape is left for the next term (a literal). -/
def tryQuant : List Char → Option (List Char)
  | '*' :: r => some (lazyOpt r)
  | '+' :: r => some (lazyOpt r)
  | '?' :: r => some (lazyOpt r)
  | '{' :: r =>
    match bracedQuant ('{' :: r) with
    | some (lo, some hi, r2) => if lo ≤ hi then some (lazyOpt r2) else none
    | some (_, none, r2) => some (lazyOpt r2)
    | none => some ('{' :: r)
  | s => some s

def isIdentStart (c : Char) : Bool := c.isAlpha || c = '_' || c = '$'

def isIdentCont (c : Char) : Bool := c.isAlphanum || c = '_' || c = '$'

/-- A group name followed by `>`. -/
def parseGroupName : List Char → Option (List Char × List Char)
  | c :: rest =>
    if isIdentStart c then
      let cont := rest.takeWhile isIdentCont
      match rest.drop cont.length with
      | '>' :: r2 => some (c :: cont, r2)
      | _ => none
    else none
  | [] => none

/-- `<name>` (for `\k`). -/
def parseAngleName : List Char → Option (List Char × List Char)
  | '<' :: r => parseGroupName r
  | _ => none

/-- One `ClassAtom`, with its character value when it has one (`none` for
class escapes such as `\d`); escape sequences are evaluated so that range
bounds compare by their actual values. -/
def parseClassAtom : List Char → Option (Option Nat × List Char)
  | '\\' :: rest =>
    match rest with
    | [] => none
    | 'b' :: r => some (some 8, r)
    | 'f' :: r => some (some 12, r)
    | 'n' :: r => some (some 10, r)
    | 'r' :: r => some (some 13, r)
    | 't' :: r => some (some 9, r)
    | 'v' :: r => some (some 11, r)
    | 'd' :: r => some (none, r)
    | 'D' :: r => some (none, r)
    | 's' :: r => some (none, r)
    | 'S' :: r => some (none, r)
    | 'w' :: r => some (none, r)
    | 'W' :: r => some (none, r)
    | 'c' :: r =>
      match r with
      | c2 :: r2 =>
        if c2.isAlpha || c2.isDigit || c2 = '_' then some (some (c2.toNat % 32), r2)
        else some (some 92, 'c' :: c2 :: r2)
      | [] => some (some 92, ['c'])
    | 'x' :: r =>
      match r with
      | h1 :: h2 :: r2 =>
        if isHexDigit h1 && isHexDigit h2 then some (some (16 * hexVal h1 + hexVal h2), r2)
        else some (some 120, h1 :: h2 :: r2)
      | _ => some (some 120, r)
    | 'u' :: r =>
      match r with
      | h1 :: h2 :: h3 :: h4 :: r2 =>
        if isHexDigit h1 && isHexDigit h2 && isHexDigit h3 && isHexDigit h4 then
          some (some (4096 * hexVal h1 + 256 * hexVal h2 + 16 * hexVal h3 + hexVal h4), r2)
        else some (some 117, h1 :: h2 :: h3 :: h4 :: r2)
      | _ => some (some 117, r)
    | d1 :: r =>
      if '0' ≤ d1 && d1 ≤ '7' then
        match r with
        | d2 :: r2 =>
          if '0' ≤ d2 && d2 ≤ '7' then
            if d1 ≤ '3' then
              match r2 with
              | d3 :: r3 =>
                if '0' ≤ d3 && d3 ≤ '7' then
                  some (some (64 * (d1.toNat - 48) + 8 * (d2.toNat - 48) + (d3.toNat - 48)), r3)
                else some (some (8 * (d1.toNat - 48) + (d2.toNat - 48)), r2)
              | [] => some (some (8 * (d1.toNat - 48) + (d2.toNat - 48)), r2)
            else some (some (8 * (d1.toNat - 48) + (d2.toNat - 48)), r2)
          else some (some (d1.toNat - 48), r)
        | [] => some (some (d1.toNat - 48), r)
      else some (some d1.toNat, r)
  | c :: r => some (some c.toNat, r)
  | [] => none

/-- The body of a character class up to the closing `]`. -/
def classLoop : Nat → List Char → Option (List Char)
  | 0, _ => none
  | fuel + 1, s =>
    match s with
    | ']' :: r => some r
    | [] => none
    | _ =>
      (parseClassAtom s).bind fun va =>
        match va.2 with
        | '-' :: (']' :: r) => classLoop fuel ('-' :: ']' :: r)
        | '-' :: r2 =>
          (parseClassAtom r2).bind fun vb =>
            match va.1, vb.1 with
            | some a, some b => if a ≤ b then classLoop fuel vb.2 else none
            | _, _ => classLoop fuel vb.2
        | r1 => classLoop fuel r1

/-- `[` ClassRanges `]` (the `[` already consumed). -/
def parseClass (s : List Char) : Option (List Char) :=
  match s with
  | '^' :: r => classLoop (r.length + 1) r
  | _ => classLoop (s.length + 1) s

mutual

/-- Disjunction: alternatives separated by `|`.  Group names of different
alternatives may repeat; name clashes inside one alternative are errors. -/
def parseDisjunction : Nat → List Char → Option GroupInfo
  | 0, _ => none
  | fuel + 1, s =>
    (parseAlternative fuel s).bind fun g1 =>
      match g1.rest with
      | '|' :: r =>
        (parseDisjunction fuel r).map fun g2 =>
          ⟨g2.rest, g1.names ++ g2.names, g1.krefs ++ g2.krefs⟩
      | _ => some g1

/-- Alternative: a sequence of terms, stopping at `|`, `)` or the end. -/
def parseAlternative : Nat → List Char → Option GroupInfo
  | 0, _ => none
  | fuel + 1, s =>
    match s with
    | [] => some ⟨[], [], []⟩
    | ')' :: r => some ⟨')' :: r, [], []⟩
    | '|' :: r => some ⟨'|' :: r, [], []⟩
    | _ =>
      (parseTerm fuel s).bind fun gq =>
        (if gq.2 then tryQuant gq.1.rest else some gq.1.rest).bind fun rest1 =>
          (parseAlternative fuel rest1).bind fun g2 =>
            if gq.1.names.any (fun n => decide (n ∈ g2.names)) then none
            else some ⟨g2.rest, gq.1.names ++ g2.names, gq.1.krefs ++ g2.krefs⟩

/-- One term (atom or assertion), with whether a quantifier may follow. -/
def parseTerm : Nat → List Char → Option (GroupInfo × Bool)
  | 0, _ => none
  | fuel + 1, s =>
    match s with
    | '^' :: r => some (⟨r, [], []⟩, false)
    | '$' :: r => some (⟨r, [], []⟩, false)
    | '(' :: '?' :: ':' :: r =>
      (parseDisjunction fuel r).bind fun sub =>
        match sub.rest with
        | ')' :: r3 => some (⟨r3, sub.names, sub.krefs⟩, true)
        | _ => none
    | '(' :: '?' :: '=' :: r =>
      (parseDisjunction fuel r).bind fun sub =>
        match sub.rest with
        | ')' :: r3 => some (⟨r3, sub.names, sub.krefs⟩, true)
        | _ => none
    | '(' :: '?' :: '!' :: r =>
      (parseDisjunction fuel r).bind fun sub =>
        match sub.rest with
        | ')' :: r3 => some (⟨r3, sub.names, sub.krefs⟩, true)
        | _ => none
    | '(' :: '?' :: '<' :: '=' :: r =>
      (parseDisjunction fuel r).bind fun sub =>
        match sub.rest with
        | ')' :: r3 => some (⟨r3, sub.names, sub.krefs⟩, false)
        | _ => none
    | '(' :: '?' :: '<' :: '!' :: r =>
      (parseDisjunction fuel r).bind fun sub =>
        match sub.rest with
        | ')' :: r3 => some (⟨r3, sub.names, sub.krefs⟩, false)
        | _ => none
    | '(' :: '?' :: '<' :: r =>
      (parseGroupName r).bind fun nr =>
        (parseDisjunction fuel nr.2).bind fun sub =>
          match sub.rest with
          | ')' :: r3 =>
            if decide (nr.1 ∈ sub.names) then none
            else some (⟨r3, nr.1 :: sub.names, sub.krefs⟩, true)
          | _ => none
    | '(' :: '?' :: _ => none
    | '(' :: r =>
      (parseDisjunction fuel r).bind fun sub =>
        match sub.rest with
        | ')' :: r3 => some (⟨r3, sub.names, sub.krefs⟩, true)
        | _ => none
    | '[' :: r => (parseClass r).map fun r2 => (⟨r2, [], []⟩, true)
    | '*' :: _ => none
    | '+' :: _ => none
    | '?' :: _ => none
    | '{' :: r =>
      match bracedQuant ('{' :: r) with
      | some _ => none
      | none => some (⟨r, [], []⟩, true)
    | '\\' :: 'b' :: r => some (⟨r, [], []⟩, false)
    | '\\' :: 'B' :: r => some (⟨r, [], []⟩, false)
    | '\\' :: 'k' :: r =>
      match parseAngleName r with
      | some nr => some (⟨nr.2, [], [some nr.1]⟩, true)
      | none => some (⟨r, [], [none]⟩, true)
    | '\\' :: _ :: r => some (⟨r, [], []⟩, true)
    | '\\' :: [] => none
    | ')' :: _ => none
    | '|' :: _ => none
    | _ :: r => some (⟨r, [], []⟩, true)
    | [] => none

end

/-- Would `new RegExp(pat, 'gi')` succeed (no `SyntaxError`)?  The whole
input must parse as a Disjunction (an unconsumed `)` is unmatched), and when
the pattern declares group names every `\k` must be a reference to one of
them. -/
def regexValid (pat : List Char) : Bool :=
  match parseDisjunction (4 * pat.length + 16) pat with
  | none => false
  | some g =>
    g.rest.isEmpty &&
    (g.names.isEmpty || g.krefs.all (fun k =>
      match k with
      | some n => decide (n ∈ g.names)
      | none => false))

/-- `extractMentionContext(content, mentionName, contextChars)`.  A throwing
`RegExp` construction is the `Except.error` case.  In the `ok` case the
pattern `@mentionName` is searched case-insensitively as a literal (faithful
whenever the name contains no regex metacharacters, which is the only region
the claims exercise). -/
def extractMentionContext (content mentionName : List Char) (contextChars : Nat) :
    Except Unit (List Char) :=
  if regexValid ('@' :: mentionName) then
    match findIcaseFrom ('@' :: mentionName) content 0 with
    | none => .ok []
    | some idx =>
      let start := idx - contextChars
      let stop := min content.length (idx + mentionName.length + 1 + contextChars)
      let ctx := slice content start stop
      let ctx := if 0 < start then "...".data ++ ctx else ctx
      let ctx := if stop < content.length then ctx ++ "...".data else ctx
      .ok ctx
  else .error ()

/-! ### ai-summary (unnamed source file) : generateWeeklySummary, deals -/

/-- Keyword of `/(?:company|from|at|with)\s+.../` (case-sensitive) at `i`;
the alternatives' first letters are distinct, so at most one matches. -/
def companyKwAt (s : List Char) (i : Nat) : Option Nat :=
  ["company".data, "from".data, "at".data, "with".data].findSome?
    (fun kw => if exactAt kw s i then some kw.length else none)

/-- Match at `i` of `/(?:company|from|at|with)\s+([A-Z][a-zA-Z]+(?:\s+[A-Z]?[a-z]+)?)/`
(case-sensitive): keyword, whitespace run (the group after `\s+` must start
with an upper-case letter, so only the full run can match), a capitalized
word of ≥ 2 letters, then greedily an optional second word — whitespace run,
an optional upper-case letter, and a nonempty lower-case run. -/
def companyP1TryAt (s : List Char) (i : Nat) : Option (Nat × List Char) :=
  match companyKwAt s i with
  | none => none
  | some kl =>
    let w := wsRunLen s (i + kl)
    if w = 0 then none
    else
      match s.drop (i + kl + w) with
      | c1 :: rest =>
        if c1.isUpper then
          let run1 := rest.takeWhile Char.isAlpha
          if run1.isEmpty then none
          else
            let p2 := i + kl + w + 1 + run1.length
            let v := wsRunLen s p2
            let cap :=
              if v = 0 then c1 :: run1
              else
                match s.drop (p2 + v) with
                | c2 :: rest2 =>
                  if c2.isUpper then
                    let run2 := rest2.takeWhile Char.isLower
                    if run2.isEmpty then c1 :: run1
                    else c1 :: run1 ++ slice s p2 (p2 + v) ++ c2 :: run2
                  else if c2.isLower then
                    c1 :: run1 ++ slice s p2 (p2 + v) ++ (c2 :: rest2).takeWhile Char.isLower
                  else c1 :: run1
                | [] => c1 :: run1
            some (kl + w + cap.length, cap)
        else none
      | [] => none

/-- First company suffix of `(?:Inc|LLC|Ltd|Corp|Pty|GmbH)` (`i` flag)
matching at `j`. -/
def companySuffixAt (s : List Char) (j : Nat) : Option Nat :=
  ["inc".data, "llc".data, "ltd".data, "corp".data, "pty".data, "gmbh".data].findSome?
    (fun suf => if icaseAt suf s j then some suf.length else none)

/-- Match at `i` of `/([A-Z][a-zA-Z]+(?:\s+[A-Z]?[a-z]+)?)\s+(?:Inc|LLC|Ltd|Corp|Pty|GmbH)/gi`.
With the `i` flag every letter class matches any ASCII letter.  The first
word is a maximal letter run of ≥ 2; the optional second word backtracks
from its maximal length down to 1 before being dropped; each `\s+` can only
take a full whitespace run (what follows starts with a letter). -/
def companyP2TryAt (s : List Char) (i : Nat) : Option (Nat × List Char) :=
  match s.drop i with
  | c1 :: rest =>
    if c1.isAlpha then
      let run1 := rest.takeWhile Char.isAlpha
      if run1.isEmpty then none
      else
        let p2 := i + 1 + run1.length
        let v := wsRunLen s p2
        if v = 0 then none
        else
          let afterWs := p2 + v
          let run2 := (s.drop afterWs).takeWhile Char.isAlpha
          let withSecond :=
            (downList run2.length).findSome? (fun len2 =>
              let e2 := afterWs + len2
              let u := wsRunLen s e2
              if u = 0 then none
              else (companySuffixAt s (e2 + u)).map (fun sl =>
                ((e2 - i) + u + sl, slice s i e2)))
          match withSecond with
          | some r => some r
          | none =>
            (companySuffixAt s (p2 + v)).map (fun sl =>
              ((p2 - i) + v + sl, slice s i p2))
    else none
  | [] => none

def companyExcluded (c : List Char) : Bool :=
  decide (c ∈ ["The".data, "This".data, "That".data, "Meeting".data, "Call".data])

/-- One memory's company extraction: both patterns' exec loops in order,
each trimmed match filtered by length > 2 and the stoplist, counted into the
(cross-memory) `companyCounts` object. -/
def companyCountsFor (counts : List (List Char × Nat)) (content : List Char) :
    List (List Char × Nat) :=
  ((scanAll (companyP1TryAt content) content).map (fun x => jsTrim x.2.2) ++
   (scanAll (companyP2TryAt content) content).map (fun x => jsTrim x.2.2)).foldl
    (fun c comp =>
      if decide (2 < comp.length) && !(companyExcluded comp) then bumpCount c comp
      else c)
    counts

/-- Does a lower-cased body make the note a "deal"? -/
def isDealContent (lower : List Char) : Bool :=
  jsIncludes lower "deal".data || jsIncludes lower "contract".data ||
  jsIncludes lower "proposal".data || jsIncludes lower "tender".data

/-- The deal-status ladder: sequential (non-`else`) `if` assignments, so a
later keyword hit overwrites an earlier one. -/
def dealStatus (lower : List Char) : List Char :=
  let s := "In Progress".data
  let s := if jsIncludes lower "won".data || jsIncludes lower "signed".data ||
              jsIncludes lower "closed".data then "Won".data else s
  let s := if jsIncludes lower "lost".data || jsIncludes lower "declined".data
           then "Lost".data else s
  let s := if jsIncludes lower "submitted".data then "Submitted".data else s
  s

structure DealRec where
  company : List Char
  status : List Char
  notes : List Char
deriving DecidableEq, Repr

/-- The per-memory loop of `generateWeeklySummary` restricted to the state
feeding `deals`: `companyCounts` accumulates across memories (it is declared
outside the loop), and a note containing a deal keyword produces a deal
record with the first known company, the status ladder's result, and the
first 100 characters of its first line. -/
def weeklyDealsGo (counts : List (List Char × Nat)) (deals : List DealRec) :
    List MemoryRec → List DealRec
  | [] => deals
  | m :: rest =>
    let counts' := companyCountsFor counts m.content
    let lower := lcList m.content
    let deals' :=
      if isDealContent lower then
        match (jsEntriesOrder counts').map Prod.fst with
        | [] => deals
        | c :: _ => deals ++ [⟨c, dealStatus lower, (m.content.takeWhile (fun ch => ch ≠ '\n')).take 100⟩]
      else deals
    weeklyDealsGo counts' deals' rest

/-- The `deals` field of `generateWeeklySummary(memories)` as a function of
the already time-filtered memory list (the 7-day `lastModified` filter reads
the system clock and is outside the embedded fragment). -/
def generateWeeklySummaryDeals (memories : List MemoryRec) : List DealRec :=
  weeklyDealsGo [] [] memories

/-! ## Supporting lemmas -/

theorem scanFrom_mem (tryAt : Nat → Option (Nat × List Char)) (n : Nat) :
    ∀ fuel pos x, x ∈ scanFrom tryAt n fuel pos →
      tryAt x.1 = some (x.2.1, x.2.2) ∧ pos ≤ x.1 := by
  intro fuel
  induction fuel with
  | zero => intro pos x hx; simp [scanFrom] at hx
  | succ fuel ih =>
    intro pos x hx
    unfold scanFrom at hx
    split at hx
    · simp at hx
    · rename_i i h1
      unfold findIdxFrom at h1
      have hfound := List.find?_some h1
      simp only [Bool.and_eq_true, decide_eq_true_eq] at hfound
      split at hx
      · simp at hx
      · rename_i len cap h2
        simp only [List.mem_cons] at hx
        rcases hx with rfl | hx
        · exact ⟨h2, hfound.1⟩
        · have ht := ih (i + len) x hx
          exact ⟨ht.1, le_trans (le_trans hfound.1 (Nat.le_add_right i len)) ht.2⟩

theorem scanFrom_pairwise (tryAt : Nat → Option (Nat × List Char)) (n : Nat)
    (hpos : ∀ i l c, tryAt i = some (l, c) → 0 < l) :
    ∀ fuel pos, (scanFrom tryAt n fuel pos).Pairwise (fun a b => a.1 < b.1) := by
  intro fuel
  induction fuel with
  | zero => intro pos; simp [scanFrom]
  | succ fuel ih =>
    intro pos
    unfold scanFrom
    split
    · exact List.Pairwise.nil
    · rename_i i h1
      split
      · exact List.Pairwise.nil
      · rename_i len cap h2
        refine List.Pairwise.cons ?_ (ih (i + len))
        intro b hb
        have hlb := (scanFrom_mem tryAt n fuel (i + len) b hb).2
        have hl := hpos i len cap h2
        show i < b.1
        omega

theorem scanAll_mem (tryAt : Nat → Option (Nat × List Char)) (s : List Char)
    (x : Nat × Nat × List Char) (hx : x ∈ scanAll tryAt s) :
    tryAt x.1 = some (x.2.1, x.2.2) :=
  (scanFrom_mem tryAt s.length (s.length + 1) 0 x hx).1

theorem scanAll_pairwise (tryAt : Nat → Option (Nat × List Char)) (s : List Char)
    (hpos : ∀ i l c, tryAt i = some (l, c) → 0 < l) :
    (scanAll tryAt s).Pairwise (fun a b => a.1 < b.1) :=
  scanFrom_pairwise tryAt s.length hpos (s.length + 1) 0

/-- `take` recovers a `takeWhile` from its host list. -/
theorem take_takeWhile_length (p : Char → Bool) :
    ∀ l : List Char, l.take (l.takeWhile p).length = l.takeWhile p := by
  intro l
  induction l with
  | nil => rfl
  | cons c cs ih =>
    simp only [List.takeWhile_cons]
    by_cases h : p c
    · simp [h, ih]
    · simp [h]

/-- `drop` past a `takeWhile` reaches the `dropWhile`. -/
theorem drop_takeWhile_length (p : Char → Bool) :
    ∀ l : List Char, l.drop (l.takeWhile p).length = l.dropWhile p := by
  intro l
  induction l with
  | nil => rfl
  | cons c cs ih =>
    simp only [List.takeWhile_cons, List.dropWhile_cons]
    by_cases h : p c
    · simp [h, ih]
    · simp [h]

/-- A list splits at the length of its `takeWhile`. -/
theorem takeWhile_length_split (p : Char → Bool) (l : List Char) :
    l = l.takeWhile p ++ l.drop (l.takeWhile p).length := by
  conv_lhs => rw [← List.take_append_drop (l.takeWhile p).length l]
  rw [take_takeWhile_length]

theorem slice_of_drop {s a : List Char} {i : Nat} (h : s.drop i = a) (m : Nat) :
    slice s i (i + m) = a.take m := by
  unfold slice
  rw [h, Nat.add_sub_cancel_left]

theorem take_cons1 (a : Char) (l : List Char) (n : Nat) :
    (a :: l).take (1 + n) = a :: l.take n := by
  rw [Nat.add_comm]
  rfl

theorem take_cons2_4 (a b : Char) (l : List Char) (n : Nat) :
    (a :: b :: l).take (n + 4) = a :: b :: l.take (n + 2) := rfl

/-- Taking a `takeWhile` run plus two more characters out of its host. -/
theorem take_run_split2 (p : Char → Bool) (rest : List Char) (a b : Char) (tail : List Char)
    (hdrop2 : rest.drop (rest.takeWhile p).length = a :: b :: tail) :
    rest.take ((rest.takeWhile p).length + 2) = rest.takeWhile p ++ [a, b] := by
  obtain ⟨R, hR⟩ : ∃ R, rest.takeWhile p = R := ⟨_, rfl⟩
  rw [hR] at hdrop2
  rw [hR]
  have hsplit : rest = R ++ (a :: b :: tail) := by
    conv_lhs => rw [takeWhile_length_split p rest]
    rw [hR, hdrop2]
  conv_lhs => rw [hsplit]
  rw [List.take_append]
  rfl

/-- Taking a `takeWhile` run, one separator and a second `takeWhile` run out
of the host list. -/
theorem take_run_split (p : Char → Bool) (rest : List Char) (w : Char) (rest2 : List Char)
    (hdrop2 : rest.drop (rest.takeWhile p).length = w :: rest2) :
    rest.take (rest.takeWhile p ++ w :: rest2.takeWhile p).length
      = rest.takeWhile p ++ w :: rest2.takeWhile p := by
  obtain ⟨R, hR⟩ : ∃ R, rest.takeWhile p = R := ⟨_, rfl⟩
  obtain ⟨Q, hQ⟩ : ∃ Q, rest2.takeWhile p = Q := ⟨_, rfl⟩
  rw [hR] at hdrop2
  rw [hR, hQ]
  have hsplit : rest = R ++ (w :: rest2) := by
    conv_lhs => rw [takeWhile_length_split p rest]
    rw [hR, hdrop2]
  conv_lhs => rw [hsplit]
  rw [List.length_append, List.length_cons]
  rw [show R.length + (Q.length + 1) = R.length + (1 + Q.length) from by omega]
  rw [List.take_append]
  rw [show (w :: rest2).take (1 + Q.length) = w :: rest2.take Q.length from by
    rw [Nat.add_comm]
    rfl]
  rw [← hQ, take_takeWhile_length]

/-- A `linkTryAt` match occupies exactly the text `[[cap]]`. -/
theorem linkTryAt_sound {s : List Char} {i len : Nat} {cap : List Char}
    (h : linkTryAt s i = some (len, cap)) :
    len = cap.length + 4 ∧ slice s i (i + len) = '[' :: '[' :: (cap ++ [']', ']']) := by
  unfold linkTryAt at h
  dsimp only [] at h
  split at h
  · rename_i rest hdrop
    split at h
    · simp at h
    · split at h
      · rename_i tail hdrop2
        simp only [Option.some.injEq, Prod.mk.injEq] at h
        obtain ⟨hlen, hcap⟩ := h
        subst hcap
        subst hlen
        refine ⟨rfl, ?_⟩
        rw [slice_of_drop hdrop]
        rw [take_cons2_4]
        rw [take_run_split2 _ rest ']' ']' tail hdrop2]
      · simp at h
  · simp at h

/-- A `tagTryAt` match occupies exactly the text `#cap`. -/
theorem tagTryAt_sound {s : List Char} {i len : Nat} {cap : List Char}
    (h : tagTryAt s i = some (len, cap)) :
    len = 1 + cap.length ∧ slice s i (i + len) = '#' :: cap := by
  unfold tagTryAt at h
  dsimp only [] at h
  split at h
  · rename_i rest hdrop
    split at h
    · simp at h
    · simp only [Option.some.injEq, Prod.mk.injEq] at h
      obtain ⟨hlen, hcap⟩ := h
      subst hcap
      subst hlen
      refine ⟨rfl, ?_⟩
      rw [slice_of_drop hdrop]
      rw [take_cons1]
      rw [take_takeWhile_length]

  · simp at h

/-- A `contactTryAt` match occupies exactly the text `@cap`. -/
theorem contactTryAt_sound {s : List Char} {i len : Nat} {cap : List Char}
    (h : contactTryAt s i = some (len, cap)) :
    len = 1 + cap.length ∧ slice s i (i + len) = '@' :: cap := by
  unfold contactTryAt at h
  dsimp only [] at h
  split at h
  · rename_i c1 rest hdrop
    split at h
    · split at h
      · simp at h
      · simp only [Option.some.injEq, Prod.mk.injEq] at h
        obtain ⟨hlen, hcap⟩ := h
        subst hcap
        subst hlen
        refine ⟨rfl, ?_⟩
        rw [slice_of_drop hdrop]
        rw [take_cons1]
        congr 1
        split
        · rename_i w rest2 hdrop2
          split
          · rw [List.length_cons, List.take_succ_cons]
            congr 1
            exact take_run_split Char.isAlpha rest w rest2 hdrop2
          · rw [List.length_cons, List.take_succ_cons, take_takeWhile_length]
        · rw [List.length_cons, List.take_succ_cons, take_takeWhile_length]
    · simp at h
  · simp at h


theorem contactTryAt_pos (s : List Char) :
    ∀ i l c, contactTryAt s i = some (l, c) → 0 < l := by
  intro i l c h
  have := (contactTryAt_sound h).1
  omega

theorem tagTryAt_pos (s : List Char) :
    ∀ i l c, tagTryAt s i = some (l, c) → 0 < l := by
  intro i l c h
  have := (tagTryAt_sound h).1
  omega

theorem linkTryAt_pos (s : List Char) :
    ∀ i l c, linkTryAt s i = some (l, c) → 0 < l := by
  intro i l c h
  have := (linkTryAt_sound h).1
  omega

theorem parseMemoryContent_mentions_eq (t : List Char) :
    (parseMemoryContent t).mentions =
      contactMentions t ++ tagMentions t ++ linkMentions t := rfl

/-- C7: every mention of `parseMemoryContent` spans `start < stop`, and the
slice of the source text between the offsets is exactly the matched token,
delimiters included: `@cap` for a contact (whose `value` is the trimmed
capture), `#cap` for a tag (whose `value` is the lower-cased capture), and
`[[value]]` for a wiki link (whose `value` is the capture verbatim). -/
theorem parseMemoryContent_mention_spans (t : List Char) :
    ∀ m ∈ (parseMemoryContent t).mentions,
      m.start < m.stop ∧
      ((m.type = .contact → ∃ cap, contactTryAt t m.start = some (m.stop - m.start, cap) ∧
          slice t m.start m.stop = '@' :: cap ∧ m.value = jsTrim cap) ∧
       (m.type = .tag → ∃ cap, tagTryAt t m.start = some (m.stop - m.start, cap) ∧
          slice t m.start m.stop = '#' :: cap ∧ m.value = lcList cap) ∧
       (m.type = .link → linkTryAt t m.start = some (m.stop - m.start, m.value) ∧
          slice t m.start m.stop = '[' :: '[' :: (m.value ++ [']', ']']))) := by
  intro m hm
  rw [parseMemoryContent_mentions_eq] at hm
  rcases List.mem_append.1 hm with hm' | hlink
  · rcases List.mem_append.1 hm' with hcon | htag
    · obtain ⟨x, hx, rfl⟩ := List.mem_map.1 hcon
      have h2 := scanAll_mem (contactTryAt t) t x hx
      obtain ⟨hlen, hslice⟩ := contactTryAt_sound h2
      refine ⟨by simp only; omega, ?_, ?_, ?_⟩
      · intro _
        refine ⟨x.2.2, ?_, ?_, rfl⟩
        · simpa [Nat.add_sub_cancel_left] using h2
        · simpa [Nat.add_sub_cancel_left] using hslice
      · intro hh
        simp at hh
      · intro hh
        simp at hh
    · obtain ⟨x, hx, rfl⟩ := List.mem_map.1 htag
      have h2 := scanAll_mem (tagTryAt t) t x hx
      obtain ⟨hlen, hslice⟩ := tagTryAt_sound h2
      refine ⟨by simp only; omega, ?_, ?_, ?_⟩
      · intro hh
        simp at hh
      · intro _
        refine ⟨x.2.2, ?_, ?_, rfl⟩
        · simpa [Nat.add_sub_cancel_left] using h2
        · simpa [Nat.add_sub_cancel_left] using hslice
      · intro hh
        simp at hh
  · obtain ⟨x, hx, rfl⟩ := List.mem_map.1 hlink
    have h2 := scanAll_mem (linkTryAt t) t x hx
    obtain ⟨hlen, hslice⟩ := linkTryAt_sound h2
    refine ⟨by simp only; omega, ?_, ?_, ?_⟩
    · intro hh
      simp at hh
    · intro hh
      simp at hh
    · intro _
      refine ⟨?_, ?_⟩
      · simpa [Nat.add_sub_cancel_left] using h2
      · simpa [Nat.add_sub_cancel_left] using hslice

/-- Witness for C7 at a concrete input. -/
theorem parseMemoryContent_mention_spans_witness :
    (⟨MentionType.tag, ['x'], 6, 8⟩ : MemoryMention).start
      < (⟨MentionType.tag, ['x'], 6, 8⟩ : MemoryMention).stop :=
  (parseMemoryContent_mention_spans "@Jane #x [[L]]".data
    ⟨MentionType.tag, ['x'], 6, 8⟩ (by decide)).1

/-- C10: the `mentions` array is grouped by mention type — all contact
mentions (in order of appearance, strictly increasing start offsets), then
all tag mentions, then all link mentions — and is therefore not globally
sorted by start offset when the types interleave in the source, as the
concrete input `#x @Bob` shows. -/
theorem parseMemoryContent_mentions_grouped :
    (∀ t, (parseMemoryContent t).mentions =
        contactMentions t ++ tagMentions t ++ linkMentions t ∧
      (∀ m ∈ contactMentions t, m.type = .contact) ∧
      (∀ m ∈ tagMentions t, m.type = .tag) ∧
      (∀ m ∈ linkMentions t, m.type = .link) ∧
      (contactMentions t).Pairwise (fun a b => a.start < b.start) ∧
      (tagMentions t).Pairwise (fun a b => a.start < b.start) ∧
      (linkMentions t).Pairwise (fun a b => a.start < b.start)) ∧
    ¬ ((parseMemoryContent "#x @Bob".data).mentions.Pairwise
        (fun a b => a.start ≤ b.start)) := by
  constructor
  · intro t
    refine ⟨rfl, ?_, ?_, ?_, ?_, ?_, ?_⟩
    · intro m hm
      obtain ⟨x, _, rfl⟩ := List.mem_map.1 hm
      rfl
    · intro m hm
      obtain ⟨x, _, rfl⟩ := List.mem_map.1 hm
      rfl
    · intro m hm
      obtain ⟨x, _, rfl⟩ := List.mem_map.1 hm
      rfl
    · exact List.pairwise_map.2 (scanAll_pairwise _ t (contactTryAt_pos t))
    · exact List.pairwise_map.2 (scanAll_pairwise _ t (tagTryAt_pos t))
    · exact List.pairwise_map.2 (scanAll_pairwise _ t (linkTryAt_pos t))
  · decide

/-- Witness for C10 at a concrete input. -/
theorem parseMemoryContent_mentions_grouped_witness :
    (⟨MentionType.contact, "Bob".data, 3, 7⟩ : MemoryMention).type =
      MentionType.contact :=
  (parseMemoryContent_mentions_grouped.1 "#x @Bob".data).2.1
    ⟨MentionType.contact, "Bob".data, 3, 7⟩ (by decide)

theorem mem_setAddAux (acc : List (List Char)) (c x : List Char) :
    x ∈ setAddAux acc c ↔ x ∈ acc ∨ x = c := by
  unfold setAddAux
  split
  · rename_i hc
    constructor
    · exact fun h => Or.inl h
    · rintro (h | rfl)
      · exact h
      · exact hc
  · simp

theorem mem_foldl_setAddAux (l : List (List Char)) :
    ∀ acc x, x ∈ l.foldl setAddAux acc ↔ x ∈ acc ∨ x ∈ l := by
  induction l with
  | nil => simp
  | cons c cs ih =>
    intro acc x
    simp only [List.foldl_cons, List.mem_cons]
    rw [ih, mem_setAddAux]
    tauto

theorem mem_dedupKeepFirst (l : List (List Char)) (x : List Char) :
    x ∈ dedupKeepFirst l ↔ x ∈ l := by
  unfold dedupKeepFirst
  rw [mem_foldl_setAddAux]
  simp

theorem nodup_setAddAux (acc : List (List Char)) (c : List Char)
    (h : acc.Nodup) : (setAddAux acc c).Nodup := by
  unfold setAddAux
  split
  · exact h
  · rename_i hc
    simp [List.nodup_append, h, hc]

theorem nodup_foldl_setAddAux (l : List (List Char)) :
    ∀ acc, acc.Nodup → (l.foldl setAddAux acc).Nodup := by
  induction l with
  | nil => exact fun acc h => h
  | cons c cs ih =>
    intro acc h
    exact ih (setAddAux acc c) (nodup_setAddAux acc c h)

theorem nodup_dedupKeepFirst (l : List (List Char)) : (dedupKeepFirst l).Nodup :=
  nodup_foldl_setAddAux l [] List.nodup_nil

theorem nodup_extractWikiLinks (content : List Char) :
    (extractWikiLinks content).Nodup :=
  nodup_dedupKeepFirst _

theorem lookupCount_bumpCount (c : List (List Char × Nat)) (k q : List Char) :
    lookupCount (bumpCount c k) q = lookupCount c q + (if k = q then 1 else 0) := by
  induction c with
  | nil =>
    by_cases h : k = q <;> simp [bumpCount, lookupCount, h]
  | cons p rest ih =>
    obtain ⟨k', n⟩ := p
    by_cases h1 : k' = k
    · subst h1
      by_cases h2 : k' = q
      · subst h2
        simp [bumpCount, lookupCount]
      · simp [bumpCount, lookupCount, h2]
    · by_cases h2 : k' = q
      · subst h2
        have h1' : ¬ k = k' := fun hh => h1 hh.symm
        simp [bumpCount, lookupCount, h1, h1']
      · simp [bumpCount, lookupCount, h1, h2, ih]

theorem lookupCount_bumpAll (ks : List (List Char)) :
    ∀ c q, ks.Nodup →
      lookupCount (bumpAll c ks) q =
        lookupCount c q + (if q ∈ ks then 1 else 0) := by
  induction ks with
  | nil => simp [bumpAll]
  | cons k ks ih =>
    intro c q hnd
    have hk : k ∉ ks := (List.nodup_cons.1 hnd).1
    have hks : ks.Nodup := (List.nodup_cons.1 hnd).2
    show lookupCount (bumpAll (bumpCount c k) ks) q = _
    rw [ih (bumpCount c k) q hks, lookupCount_bumpCount]
    by_cases h1 : q = k
    · subst h1
      have : q ∉ ks := hk
      simp [this]
    · have h1' : ¬ k = q := fun hh => h1 hh.symm
      simp only [List.mem_cons]
      by_cases h2 : q ∈ ks <;> simp [h1, h1', h2]

theorem lookupCount_foldl_counts (mems : List MemoryRec) :
    ∀ c q, lookupCount (mems.foldl (fun c m => bumpAll c (extractWikiLinks m.content)) c) q =
      lookupCount c q +
        (mems.filter (fun m => decide (q ∈ extractWikiLinks m.content))).length := by
  induction mems with
  | nil => simp
  | cons m ms ih =>
    intro c q
    simp only [List.foldl_cons]
    rw [ih]
    rw [lookupCount_bumpAll _ _ _ (nodup_extractWikiLinks m.content)]
    by_cases h : q ∈ extractWikiLinks m.content <;>
      (simp [List.filter_cons, h]; try omega)

/-- Each title's count in `linkCounts` is the number of notes whose
(per-note deduplicated, trimmed) wiki links contain the title. -/
theorem lookupCount_linkCountsOf (mems : List MemoryRec) (q : List Char) :
    lookupCount (linkCountsOf mems) q =
      (mems.filter (fun m => decide (q ∈ extractWikiLinks m.content))).length := by
  unfold linkCountsOf
  rw [lookupCount_foldl_counts]
  simp [lookupCount]

theorem mem_insDesc (x z : LinkStat) : ∀ l, z ∈ insDesc x l ↔ z = x ∨ z ∈ l := by
  intro l
  induction l with
  | nil => simp [insDesc]
  | cons y ys ih =>
    unfold insDesc
    split
    · simp [List.mem_cons]
    · simp only [List.mem_cons, ih]
      tauto

theorem pairwise_insDesc (x : LinkStat) :
    ∀ l, l.Pairwise (fun u v => v.count ≤ u.count) →
      (insDesc x l).Pairwise (fun u v => v.count ≤ u.count) := by
  intro l
  induction l with
  | nil => simp [insDesc]
  | cons y ys ih =>
    intro hp
    have hy := (List.pairwise_cons.1 hp).1
    have hys := (List.pairwise_cons.1 hp).2
    unfold insDesc
    split
    · rename_i hlt
      refine List.pairwise_cons.2 ⟨?_, hp⟩
      intro b hb
      rcases List.mem_cons.1 hb with rfl | hb
      · omega
      · have := hy b hb
        omega
    · rename_i hge
      refine List.pairwise_cons.2 ⟨?_, ih hys⟩
      intro b hb
      rcases (mem_insDesc x b ys).1 hb with rfl | hb
      · omega
      · exact hy b hb

theorem pairwise_stableSortDesc (l : List LinkStat) :
    (stableSortDesc l).Pairwise (fun u v => v.count ≤ u.count) := by
  unfold stableSortDesc
  suffices h : ∀ acc, acc.Pairwise (fun u v : LinkStat => v.count ≤ u.count) →
      (l.foldl (fun acc x => insDesc x acc) acc).Pairwise
        (fun u v => v.count ≤ u.count) from h [] List.Pairwise.nil
  induction l with
  | nil => exact fun acc h => h
  | cons x xs ih =>
    intro acc hacc
    exact ih (insDesc x acc) (pairwise_insDesc x acc hacc)

/-! ## Claim theorems -/

/-- C5 counterexample: the note body `[[A]] [[A]]` has two raw `[[A]]`
occurrences, but `extractWikiLinks` deduplicates per note, so `getLinkStats`
reports a count of 1 for `A`, not the 2 the claim's raw-mention counting
demands. -/
theorem getLinkStats_dup_link_counts_once :
    (scanAll (linkTryAt "[[A]] [[A]]".data) "[[A]] [[A]]".data).length = 2 ∧
    (getLinkStats [⟨"N".data, "n.md".data, "[[A]] [[A]]".data, "".data⟩]).mostLinked =
      [⟨"A".data, 1⟩] := by
  exact ⟨by decide, by decide⟩

/-- C5 amended: `mostLinked` is the top-10 of the stable descending sort of
per-title counts, where a title's count is the number of notes that contain
it among their extracted (per-note deduplicated, trimmed) wiki links — a
note containing the same link twice contributes 1, not 2. -/
theorem getLinkStats_mostLinked (memories : List MemoryRec) :
    (getLinkStats memories).mostLinked =
      (stableSortDesc ((jsEntriesOrder (linkCountsOf memories)).map
        (fun p => ⟨p.1, p.2⟩))).take 10 ∧
    ((getLinkStats memories).mostLinked).Pairwise (fun u v => v.count ≤ u.count) ∧
    ∀ q, lookupCount (linkCountsOf memories) q =
      (memories.filter (fun m => decide (q ∈ extractWikiLinks m.content))).length := by
  refine ⟨rfl, ?_, fun q => lookupCount_linkCountsOf memories q⟩
  exact (pairwise_stableSortDesc _).sublist (List.take_sublist 10 _)

/-- JS object enumeration in `getLinkStats`: an array-index-like link title
such as `2024` is enumerated (and so listed, at equal counts) before
insertion-ordered string titles. -/
theorem getLinkStats_numeric_key_first :
    (getLinkStats [⟨"N".data, "n.md".data, "[[Beta]] [[2024]]".data, "".data⟩]).mostLinked =
      [⟨"2024".data, 1⟩, ⟨"Beta".data, 1⟩] := by
  decide

/-- C2 counterexample: `detectMemoryType("Had a call with Jane about pricing")`
is not `call` — the text contains `call with`, which belongs to the meeting
branch of the ladder, checked first. -/
theorem detectMemoryType_call_with_is_meeting :
    detectMemoryType "Had a call with Jane about pricing".data ≠ MemType.call := by
  decide

/-- C2 amended: `detectMemoryType("Had a call with Jane about pricing")`
returns `meeting` (the `call with` keyword is in the meeting branch), and
`detectMemoryType("Meeting with Jane about pricing")` returns `meeting`. -/
theorem detectMemoryType_samples :
    detectMemoryType "Had a call with Jane about pricing".data = MemType.meeting ∧
    detectMemoryType "Meeting with Jane about pricing".data = MemType.meeting := by
  exact ⟨by decide, by decide⟩

/-- C6: round trip.  With a note whose body contains `[[Alpha]]` and a note
named exactly `Alpha`, `findForwardLinks` resolves the link with
`exists: true` and the second note's path; with the `Alpha` note removed it
reports `exists: false`, and `buildLinkGraph` introduces a `virtual:Alpha`
node and an edge from the first note to it. -/
theorem roundTrip_alpha :
    findForwardLinks "See [[Alpha]] now".data
        [⟨"First".data, "first.md".data, "See [[Alpha]] now".data, "".data⟩,
         ⟨"Alpha".data, "alpha.md".data, "Body".data, "".data⟩] =
      [⟨"Alpha".data, true, some "alpha.md".data⟩] ∧
    findForwardLinks "See [[Alpha]] now".data
        [⟨"First".data, "first.md".data, "See [[Alpha]] now".data, "".data⟩] =
      [⟨"Alpha".data, false, none⟩] ∧
    buildLinkGraph [⟨"First".data, "first.md".data, "See [[Alpha]] now".data, "".data⟩] =
      ([⟨"first.md".data, "First".data⟩, ⟨"virtual:Alpha".data, "Alpha".data⟩],
       [⟨"first.md".data, "virtual:Alpha".data⟩]) := by
  exact ⟨by decide, by decide, by decide⟩

/-- C9: the resolution rules of `findForwardLinks` (equality or containment
in either direction) and `buildLinkGraph` (equality or name-contains-link
only) are not equivalent: for a link title `Alpha` strictly containing the
note name `Al`, `findForwardLinks` reports `exists: true` while
`buildLinkGraph` emits a `virtual:Alpha` node and edge. -/
theorem ffMatch_blgMatch_diverge :
    (∀ m t, ffMatch m t =
        (lcList m.name = lcList t || jsIncludes (lcList m.name) (lcList t) ||
         jsIncludes (lcList t) (lcList m.name))) ∧
    (∀ m t, blgMatch m t =
        (lcList m.name = lcList t || jsIncludes (lcList m.name) (lcList t))) ∧
    findForwardLinks "[[Alpha]]".data
        [⟨"Al".data, "al.md".data, "x".data, "".data⟩,
         ⟨"Src".data, "src.md".data, "[[Alpha]]".data, "".data⟩] =
      [⟨"Alpha".data, true, some "al.md".data⟩] ∧
    buildLinkGraph
        [⟨"Al".data, "al.md".data, "x".data, "".data⟩,
         ⟨"Src".data, "src.md".data, "[[Alpha]]".data, "".data⟩] =
      ([⟨"al.md".data, "Al".data⟩, ⟨"src.md".data, "Src".data⟩,
        ⟨"virtual:Alpha".data, "Alpha".data⟩],
       [⟨"src.md".data, "virtual:Alpha".data⟩]) :=
  ⟨fun m t => rfl, fun m t => rfl, by decide, by decide⟩

/-- C1 (code bug): `findBacklinks` creates its `targetRegex` once, outside
the note loop, with the `g` flag; `regex.test` therefore resumes each note's
search at the `lastIndex` left over from the previous note.  With two notes
whose bodies are both exactly `[[T]]`, the second note's test starts at
index 5 and fails, so only the first note is reported — the claim's
"one `Backlink` per linking note" fails. -/
theorem findBacklinks_skips_second_note :
    findBacklinks "T".data
        [⟨"A".data, "a.md".data, "[[T]]".data, "d1".data⟩,
         ⟨"B".data, "b.md".data, "[[T]]".data, "d2".data⟩] =
      [⟨"A".data, "a.md".data, "[[T]]".data, "d1".data⟩] := by
  decide

theorem weeklyDealsGo_mem :
    ∀ (ms : List MemoryRec) (counts : List (List Char × Nat)) (deals : List DealRec)
      (d : DealRec), d ∈ weeklyDealsGo counts deals ms →
      d ∈ deals ∨ ∃ m, m ∈ ms ∧ isDealContent (lcList m.content) = true ∧
        d.status = dealStatus (lcList m.content) := by
  intro ms
  induction ms with
  | nil =>
    intro counts deals d hd
    exact Or.inl hd
  | cons m rest ih =>
    intro counts deals d hd
    unfold weeklyDealsGo at hd
    dsimp only [] at hd
    rcases ih _ _ d hd with hdl | ⟨m', hm', hdeal, hst⟩
    · split at hdl
      · rename_i hdc
        split at hdl
        · exact Or.inl hdl
        · rcases List.mem_append.1 hdl with h' | h'
          · exact Or.inl h'
          · simp only [List.mem_singleton] at h'
            subst h'
            exact Or.inr ⟨m, List.mem_cons_self m rest, hdc, rfl⟩
      · exact Or.inl hdl
    · exact Or.inr ⟨m', List.mem_cons_of_mem m hm', hdeal, hst⟩

/-- C3 counterexample: a deal note whose body contains both `won` and
`submitted` is assigned status `Submitted` (the later, sequential `if`
overwrites), not the `Won` the claim's first-match ladder predicts. -/
theorem weeklyDeals_submitted_overrides_won :
    (generateWeeklySummaryDeals
        [⟨"D".data, "d.md".data, "deal with Actility won submitted".data, "".data⟩]).map
        DealRec.status = ["Submitted".data] ∧
    jsIncludes (lcList "deal with Actility won submitted".data) "won".data = true := by
  exact ⟨by decide, by decide⟩

/-- C3 amended: every deal recorded by `generateWeeklySummary` takes its
status from `dealStatus` of its note's lower-cased body, and `dealStatus` is
the keyword ladder with the *reversed* precedence: `Submitted` if submitted;
else `Lost` if lost/declined; else `Won` if won/signed/closed; else
`In Progress` (the source's sequential `if`s let later keywords override). -/
theorem weeklyDeals_status (mems : List MemoryRec) (d : DealRec)
    (hd : d ∈ generateWeeklySummaryDeals mems) :
    (∃ m, m ∈ mems ∧ isDealContent (lcList m.content) = true ∧
      d.status = dealStatus (lcList m.content)) ∧
    (∀ l, dealStatus l =
      if jsIncludes l "submitted".data then "Submitted".data
      else if jsIncludes l "lost".data || jsIncludes l "declined".data then "Lost".data
      else if jsIncludes l "won".data || jsIncludes l "signed".data ||
              jsIncludes l "closed".data then "Won".data
      else "In Progress".data) := by
  constructor
  · rcases weeklyDealsGo_mem mems [] [] d hd with h | h
    · simp at h
    · exact h
  · intro l
    rfl

/-- Witness for C3 at a concrete input. -/
theorem weeklyDeals_status_witness :
    ∃ m, m ∈ [(⟨"D".data, "d.md".data, "deal with Actility won submitted".data,
          "".data⟩ : MemoryRec)] ∧
      isDealContent (lcList m.content) = true ∧
      DealRec.status ⟨"Actility won".data, "Submitted".data,
        "deal with Actility won submitted".data⟩ = dealStatus (lcList m.content) :=
  (weeklyDeals_status
    [⟨"D".data, "d.md".data, "deal with Actility won submitted".data, "".data⟩]
    ⟨"Actility won".data, "Submitted".data, "deal with Actility won submitted".data⟩
    (by decide)).1

theorem pushItem_mem (lower : List Char) (items : List VoiceActionItem)
    (cap : List Char) (it : VoiceActionItem) (h : it ∈ pushItem lower items cap) :
    it ∈ items ∨ it.dueDate = voiceDueDate lower := by
  unfold pushItem at h
  dsimp only [] at h
  split at h
  · rcases List.mem_append.1 h with h' | h'
    · exact Or.inl h'
    · simp only [List.mem_singleton] at h'
      subst h'
      exact Or.inr rfl
  · exact Or.inl h

theorem foldl_pushItem_mem (lower : List Char) (l : List (Nat × Nat × List Char)) :
    ∀ items it, it ∈ l.foldl (fun its x => pushItem lower its x.2.2) items →
      it ∈ items ∨ it.dueDate = voiceDueDate lower := by
  induction l with
  | nil =>
    intro items it h
    exact Or.inl h
  | cons x xs ih =>
    intro items it h
    rcases ih _ it h with h' | h'
    · exact pushItem_mem lower items x.2.2 it h'
    · exact Or.inr h'

/-- C8: every action item extracted from a transcript carries the same
`dueDate`, computed by `voiceDueDate` — the fixed keyword ladder
tomorrow / today / next week / by friday / by monday over the lower-cased
*whole* transcript (`none` when no keyword occurs anywhere) — independent of
where the item's own clause occurs. -/
theorem extractVoiceActionItems_dueDate (text : List Char) (it : VoiceActionItem)
    (hit : it ∈ extractVoiceActionItems text) :
    it.dueDate = voiceDueDate (lcList text) := by
  unfold extractVoiceActionItems at hit
  dsimp only [] at hit
  rcases foldl_pushItem_mem _ _ _ _ hit with h | h
  · rcases foldl_pushItem_mem _ _ _ _ h with h' | h'
    · rcases foldl_pushItem_mem _ _ _ _ h' with h'' | h''
      · rcases foldl_pushItem_mem _ _ _ _ h'' with h3 | h3
        · simp at h3
        · exact h3
      · exact h''
    · exact h'
  · exact h

/-- Witness for C8 at a concrete input. -/
theorem extractVoiceActionItems_dueDate_witness :
    VoiceActionItem.dueDate ⟨"email the whole team".data, none, some "tomorrow".data⟩ =
      voiceDueDate (lcList "Must email the whole team tomorrow".data) :=
  extractVoiceActionItems_dueDate "Must email the whole team tomorrow".data
    ⟨"email the whole team".data, none, some "tomorrow".data⟩ (by decide)

/-- C4 counterexample: `extractMentionContext` is not total — with the
mention name `(` the assembled pattern `@(` is an invalid regex and the
`RegExp` constructor throws a `SyntaxError`. -/
theorem extractMentionContext_throws_on_paren :
    extractMentionContext "Call with Jane".data "(".data 50 = .error () := rfl

/-- C4 amended: `parseMemoryContent` is total and yields the empty structure
on empty input and on an unterminated bracket; `extractMentionContext`
returns normally exactly when the assembled pattern `@name` is a valid
regex, and throws (`Except.error`) when the name makes it invalid — names
with an out-of-order class range (`[z-a]`) or braced quantifier (`a{2,1}`)
throw, while lookbehind (`(?<=a)`) and named-group (`(?<n>a)`) names do
not. -/
theorem extraction_totality :
    parseMemoryContent [] = ⟨[], [], [], []⟩ ∧
    parseMemoryContent "[[Alpha".data = ⟨[], [], [], []⟩ ∧
    regexValid "@[z-a]".data = false ∧
    regexValid "@a\x7b2,1\x7d".data = false ∧
    regexValid "@(?<=a)".data = true ∧
    regexValid "@(?<n>a)".data = true ∧
    (∀ content name contextChars,
      (regexValid ('@' :: name) = true →
        (extractMentionContext content name contextChars).isOk = true) ∧
      (regexValid ('@' :: name) = false →
        extractMentionContext content name contextChars = .error ())) := by
  refine ⟨by decide, by decide, by decide, by decide, by decide, by decide, ?_⟩
  intro content name contextChars
  constructor
  · intro h
    unfold extractMentionContext
    rw [h]
    rw [if_pos rfl]
    split
    · rfl
    · rfl
  · intro h
    unfold extractMentionContext
    rw [h]
    rfl

/-- Witness for C4's amended theorem at a concrete input. -/
theorem extraction_totality_witness :
    (extractMentionContext "Call with Jane".data "Jane".data 50).isOk = true :=
  (extraction_totality.2.2.2.2.2.2 "Call with Jane".data "Jane".data 50).1 (by decide)

end SecondBrain
